import Mathlib

/-!
Verification of the Fibonacci-gRPC repository (Go).

The repository contains two variants of the Fibonacci compute service:
* `fibonacci-service/main.go`: in-process `map[int]int` cache guarded by a
  `sync.RWMutex` (embedded below in namespace `FibSvc`), together with the
  stats service (`statsService`, embedded in namespace `StatsSvc`);
* an unnamed variant using a Redis cache and a generic `RetryGRPC` helper
  (embedded in namespace `RedisSvc`).

Go's `int` is a 64-bit signed machine integer; additions in the source can in
principle wrap around, so addition on cache values is modelled by `wadd`,
two's-complement 64-bit wrapping addition on `Int`.  Maps `map[int]int` are
modelled as functions `Int → Option Int` (`none` = key absent); reading an
absent key in Go yields the zero value, modelled by `Option.getD _ 0`.
-/

/-- A Go `map[int]int` (or the Redis key space `fib:<n>`), keyed by `Int`. -/
def Cache := Int → Option Int

/-- Reinterpret an integer as a signed 64-bit value (two's complement). -/
def i64 (x : Int) : Int :=
  (x + 9223372036854775808) % 18446744073709551616 - 9223372036854775808

/-- Go `int` addition: 64-bit wrapping addition. -/
def wadd (a b : Int) : Int := i64 (a + b)

/-- Wrapping addition agrees with exact addition below `2^63`. -/
theorem wadd_eq {a b : Int} (ha : 0 ≤ a) (hb : 0 ≤ b)
    (hab : a + b < 9223372036854775808) : wadd a b = a + b := by
  unfold wadd i64
  have h1 : (0 : Int) ≤ a + b + 9223372036854775808 := by omega
  have h2 : a + b + 9223372036854775808 < 18446744073709551616 := by omega
  rw [Int.emod_eq_of_lt h1 h2]
  omega

/-- Wrapping addition agrees with exact addition whenever the exact sum is
representable in a signed 64-bit integer. -/
theorem wadd_eq_of_bounds {a b : Int} (h1 : -9223372036854775808 ≤ a + b)
    (h2 : a + b < 9223372036854775808) : wadd a b = a + b := by
  unfold wadd i64
  rw [Int.emod_eq_of_lt (by omega) (by omega)]
  omega

/-- All Fibonacci numbers up to index 92 fit in a signed 64-bit integer
(`Fib(92) = 7540113804746346429 < 2^63`); this is why the service caps `n`
at 92. -/
theorem fib_le_92_lt (n : Nat) (hn : n ≤ 92) :
    Nat.fib n < 9223372036854775808 :=
  lt_of_le_of_lt (Nat.fib_mono hn) (by decide)

namespace FibSvc

/-- The package-level cache literal `map[int]int{0: 0, 1: 1}` of
`fibonacci-service/main.go`. -/
def initCache : Cache := fun k =>
  if k = 0 then some 0 else if k = 1 then some 1 else none

/-- One iteration of the fill loop in `Fib` (`fibonacci-service/main.go`
lines 94-98): `if _, exists := fibCache[i]; !exists { fibCache[i] =
fibCache[i-1] + fibCache[i-2] }`. -/
def fillStep (c : Cache) (i : Int) : Cache :=
  match c i with
  | some _ => c
  | none => fun k =>
      if k = i then some (wadd ((c (i - 1)).getD 0) ((c (i - 2)).getD 0))
      else c k

/-- The whole fill loop `for i := 2; i <= n; i++` of `Fib`, as a function of
the loop's upper bound `n` (no iterations run when `n < 2`). -/
def fibLoop (c : Cache) : Nat → Cache
  | 0 => c
  | 1 => c
  | n + 2 => fillStep (fibLoop c (n + 1)) ((n + 2 : Nat) : Int)

/-- `Fib` of `fibonacci-service/main.go` (map-cache variant): base cases 0
and 1, read-locked cache lookup, and on a miss the write-locked fill loop
followed by `result := fibCache[n]`.  Returns the result and the cache left
behind.  For negative `n` the loop bound `n.toNat` is `0`, matching Go where
`for i := 2; i <= n` runs no iterations. -/
def Fib (c : Cache) (n : Int) : Int × Cache :=
  if n = 0 then (0, c)
  else if n = 1 then (1, c)
  else
    match c n with
    | some cached => (cached, c)
    | none =>
        let c2 := fibLoop c n.toNat
        ((c2 n).getD 0, c2)

/-- `FibSlow` of `fibonacci-service/main.go`: naive double recursion,
"retained for testing duration".  The Go function diverges on negative
input, so it is embedded on `Nat` (the domain on which it terminates). -/
def FibSlow : Nat → Int
  | 0 => 0
  | 1 => 1
  | n + 2 => wadd (FibSlow (n + 1)) (FibSlow n)

/-- gRPC status codes appearing in the source. -/
inductive GrpcCode where
  | InvalidArgument
  | Unavailable
  | DeadlineExceeded
  | PermissionDenied
  deriving DecidableEq

/-- A gRPC `status.Error` value: a code plus a message. -/
structure GrpcError where
  code : GrpcCode
  msg : String
  deriving DecidableEq

/-- `GetFib` of `fibonacci-service/main.go`: rejects only `n > 92` with
`InvalidArgument`, otherwise computes `Fib(n)` and replies with it.  The
fire-and-forget stats goroutine only logs its outcome; it does not affect
the reply, so it does not appear in the return value. -/
def GetFib (c : Cache) (n : Int) : (Except GrpcError Int) × Cache :=
  if 92 < n then
    (Except.error ⟨GrpcCode.InvalidArgument, "n too large (max 92)"⟩, c)
  else
    let r := Fib c n
    (Except.ok r.1, r.2)

end FibSvc

/-- Invariant of the map-variant cache: the base entries `0 ↦ 0` and `1 ↦ 1`
are present, and every present entry is a correct Fibonacci value at a
nonnegative index at most 92. -/
def GoodCache (c : Cache) : Prop :=
  c 0 = some 0 ∧ c 1 = some 1 ∧
  ∀ k v, c k = some v → ∃ m : Nat, k = (m : Int) ∧ m ≤ 92 ∧ v = (Nat.fib m : Int)

/-- Cache states reachable from the package-level initial cache by `Fib`
calls with validated inputs (`GetFib` admits every `n ≤ 92`). -/
inductive ReachableCache : Cache → Prop where
  | init : ReachableCache FibSvc.initCache
  | step (c : Cache) (n : Nat) (hn : n ≤ 92) (hc : ReachableCache c) :
      ReachableCache (FibSvc.Fib c (n : Int)).2

theorem fillStep_of_some {c : Cache} {i v : Int} (h : c i = some v) :
    FibSvc.fillStep c i = c := by
  unfold FibSvc.fillStep
  rw [h]

theorem fillStep_of_none {c : Cache} {i : Int} (h : c i = none) (k : Int) :
    FibSvc.fillStep c i k =
      if k = i then some (wadd ((c (i - 1)).getD 0) ((c (i - 2)).getD 0))
      else c k := by
  unfold FibSvc.fillStep
  rw [h]

/-- The initial cache satisfies the invariant. -/
theorem goodCache_init : GoodCache FibSvc.initCache := by
  refine ⟨rfl, rfl, ?_⟩
  intro k v h
  unfold FibSvc.initCache at h
  split_ifs at h with h0 h1
  · exact ⟨0, by simp [h0], by omega, by simpa using h.symm⟩
  · exact ⟨1, by simp [h1], by omega, by simpa using h.symm⟩

/-- Correctness of the fill loop: it preserves existing entries, fills every
index up to the loop bound with the true Fibonacci value, and keeps the
entry invariant. -/
theorem fibLoop_spec (c : Cache) (hg : GoodCache c) :
    ∀ n : Nat, n ≤ 92 →
      (∀ k v, c k = some v → FibSvc.fibLoop c n k = some v) ∧
      (∀ m : Nat, m ≤ n → FibSvc.fibLoop c n ((m : Nat) : Int) =
        some ((Nat.fib m : Int))) ∧
      (∀ k v, FibSvc.fibLoop c n k = some v →
        ∃ m : Nat, k = (m : Int) ∧ m ≤ 92 ∧ v = (Nat.fib m : Int)) := by
  obtain ⟨hg0, hg1, hgE⟩ := hg
  intro n
  induction n using Nat.twoStepInduction with
  | zero =>
      intro _
      refine ⟨fun k v h => h, ?_, hgE⟩
      intro m hm
      interval_cases m
      simpa [FibSvc.fibLoop] using hg0
  | one =>
      intro _
      refine ⟨fun k v h => h, ?_, hgE⟩
      intro m hm
      interval_cases m
      · simpa [FibSvc.fibLoop] using hg0
      · simpa [FibSvc.fibLoop] using hg1
  | more n ih1 ih2 =>
      intro hn
      obtain ⟨A1, B1, C1⟩ := ih2 (by omega)
      have hloop : FibSvc.fibLoop c (n + 2) =
          FibSvc.fillStep (FibSvc.fibLoop c (n + 1)) ((n + 2 : Nat) : Int) := rfl
      cases hcase : FibSvc.fibLoop c (n + 1) ((n + 2 : Nat) : Int) with
      | some v =>
          have hfill := fillStep_of_some hcase
          rw [hloop, hfill]
          refine ⟨A1, ?_, C1⟩
          intro m hm
          rcases Nat.lt_or_ge m (n + 2) with hlt | hge
          · exact B1 m (by omega)
          · have hm2 : m = n + 2 := by omega
            subst hm2
            obtain ⟨m', hk, _, hv⟩ := C1 _ v hcase
            have hmm : m' = n + 2 := by omega
            subst hmm
            rw [hcase, hv]
      | none =>
          have hpt := fillStep_of_none hcase
          have e1 : ((n + 2 : Nat) : Int) - 1 = ((n + 1 : Nat) : Int) := by
            push_cast
            ring
          have e2 : ((n + 2 : Nat) : Int) - 2 = ((n : Nat) : Int) := by
            push_cast
            ring
          have r1 : FibSvc.fibLoop c (n + 1) (((n + 2 : Nat) : Int) - 1) =
              some ((Nat.fib (n + 1) : Int)) := by
            rw [e1]
            exact B1 (n + 1) (le_refl _)
          have r2 : FibSvc.fibLoop c (n + 1) (((n + 2 : Nat) : Int) - 2) =
              some ((Nat.fib n : Int)) := by
            rw [e2]
            exact B1 n (by omega)
          have hsum : (Nat.fib (n + 1) : Int) + (Nat.fib n : Int) <
              9223372036854775808 := by
            have hb := fib_le_92_lt (n + 2) hn
            rw [Nat.fib_add_two] at hb
            exact_mod_cast Nat.add_comm (Nat.fib n) (Nat.fib (n + 1)) ▸ hb
          have hval : wadd ((FibSvc.fibLoop c (n + 1)
                (((n + 2 : Nat) : Int) - 1)).getD 0)
              ((FibSvc.fibLoop c (n + 1) (((n + 2 : Nat) : Int) - 2)).getD 0) =
              ((Nat.fib (n + 2) : Int)) := by
            rw [r1, r2]
            simp only [Option.getD_some]
            rw [wadd_eq (by positivity) (by positivity) hsum]
            push_cast [Nat.fib_add_two]
            ring
          refine ⟨?_, ?_, ?_⟩
          · intro k v h
            have h1 := A1 k v h
            have hk : k ≠ ((n + 2 : Nat) : Int) := by
              intro hkk
              rw [hkk, hcase] at h1
              exact Option.noConfusion h1
            rw [hloop, hpt k, if_neg hk]
            exact h1
          · intro m hm
            rcases Nat.lt_or_ge m (n + 2) with hlt | hge
            · have hk : ((m : Nat) : Int) ≠ ((n + 2 : Nat) : Int) := by omega
              rw [hloop, hpt _, if_neg hk]
              exact B1 m (by omega)
            · have hm2 : m = n + 2 := by omega
              subst hm2
              rw [hloop, hpt _, if_pos rfl, hval]
          · intro k v h
            rw [hloop, hpt k] at h
            by_cases hk : k = ((n + 2 : Nat) : Int)
            · rw [if_pos hk, hval] at h
              exact ⟨n + 2, by omega, by omega, (Option.some.injEq _ _ ▸ h).symm⟩
            · rw [if_neg hk] at h
              exact C1 k v h

/-- Correctness and invariant preservation of the map-variant `Fib` on a
good cache, for validated inputs. -/
theorem Fib_correct (c : Cache) (hg : GoodCache c) (n : Nat) (hn : n ≤ 92) :
    (FibSvc.Fib c (n : Int)).1 = (Nat.fib n : Int) ∧
    GoodCache (FibSvc.Fib c (n : Int)).2 ∧
    (∀ k v, c k = some v → (FibSvc.Fib c (n : Int)).2 k = some v) := by
  match n with
  | 0 =>
      refine ⟨by simp [FibSvc.Fib], by simpa [FibSvc.Fib] using hg, ?_⟩
      intro k v h
      simpa [FibSvc.Fib] using h
  | 1 =>
      refine ⟨by simp [FibSvc.Fib], by simpa [FibSvc.Fib] using hg, ?_⟩
      intro k v h
      simpa [FibSvc.Fib] using h
  | m + 2 =>
      have hne0 : ((m + 2 : Nat) : Int) ≠ 0 := by omega
      have hne1 : ((m + 2 : Nat) : Int) ≠ 1 := by omega
      obtain ⟨hg0, hg1, hgE⟩ := hg
      cases hcase : c ((m + 2 : Nat) : Int) with
      | some v =>
          have hv : v = (Nat.fib (m + 2) : Int) := by
            obtain ⟨m', hk, _, hv⟩ := hgE _ v hcase
            have : m' = m + 2 := by omega
            subst this
            exact hv
          have hF : FibSvc.Fib c ((m + 2 : Nat) : Int) = (v, c) := by
            unfold FibSvc.Fib
            rw [if_neg hne0, if_neg hne1, hcase]
          rw [hF, hv]
          exact ⟨rfl, ⟨hg0, hg1, hgE⟩, fun k v h => h⟩
      | none =>
          obtain ⟨A, B, C⟩ := fibLoop_spec c ⟨hg0, hg1, hgE⟩ (m + 2) hn
          have htn : ((m + 2 : Nat) : Int).toNat = m + 2 := by omega
          have hF : FibSvc.Fib c ((m + 2 : Nat) : Int) =
              ((FibSvc.fibLoop c (m + 2) ((m + 2 : Nat) : Int)).getD 0,
                FibSvc.fibLoop c (m + 2)) := by
            unfold FibSvc.Fib
            rw [if_neg hne0, if_neg hne1, hcase, htn]
          rw [hF]
          refine ⟨?_, ⟨?_, ?_, C⟩, A⟩
          · rw [B (m + 2) (le_refl _)]
            rfl
          · exact A 0 0 hg0
          · exact A 1 1 hg1

/-- Every reachable map-variant cache satisfies the invariant. -/
theorem goodCache_of_reachable {c : Cache} (h : ReachableCache c) :
    GoodCache c := by
  induction h with
  | init => exact goodCache_init
  | step c n hn _ ih => exact (Fib_correct c ih n hn).2.1

/-- A delivery-attempt failure as classified by the retry helper:
`status.FromError` either recognises a gRPC status (`ok = true`) or not. -/
inductive RpcError where
  | grpc (st : FibSvc.GrpcError)
  | nonGrpc
  deriving DecidableEq

/-- The fire-and-forget stats goroutine of the map variant
(`fibonacci-service/main.go` lines 49-61): a single `RecordNo` call under a
2-second timeout, whose outcome (`telem 0`) is logged and dropped — exactly
one attempt, no retry loop, no backoff sleep (`RetryGRPC` does not exist in
that file).  Returns (outcome, attempts made, sleeps performed), the same
shape as the unnamed variant's `RetryGRPC`, for comparison. -/
def FibSvc.Report (telem : Nat → Option RpcError) :
    Option RpcError × Nat × List Int :=
  (telem 0, 1, [])

namespace RedisSvc

/-- A fresh Redis store: no `fib:<n>` key present. -/
def emptyCache : Cache := fun _ => none

/-- The retry-eligibility test of `RetryGRPC` (unnamed variant lines 64-70):
retry only when the error is a gRPC status with code `Unavailable` or
`DeadlineExceeded`; a non-gRPC error or any other code is terminal. -/
def retryableErr : RpcError → Bool
  | RpcError.grpc st =>
      st.code = FibSvc.GrpcCode.Unavailable ∨
        st.code = FibSvc.GrpcCode.DeadlineExceeded
  | RpcError.nonGrpc => false

/-- The body of `RetryGRPC`'s `for i := 0; i <= maxRetries; i++` loop.
`f i` is the outcome of the `i`-th call of the fallible operation (`none` =
success).  `fuel` is the number of iterations left, `i` the next attempt
index (= attempts made so far), `delay` the current backoff, `prev` the last
error seen (`var err error` starts as `nil`), and `acc` the sleeps performed
so far, most recent first.  Returns (final error, attempts made, sleeps in
chronological order). -/
def retryAux (f : Nat → Option RpcError) :
    Nat → Nat → Int → Option RpcError → List Int →
      Option RpcError × Nat × List Int
  | 0, i, _, prev, acc => (prev, i, acc.reverse)
  | fuel + 1, i, delay, _, acc =>
      match f i with
      | none => (none, i + 1, acc.reverse)
      | some e =>
          if retryableErr e then
            retryAux f fuel (i + 1) (delay * 2) (some e) (delay :: acc)
          else (some e, i + 1, acc.reverse)

/-- `RetryGRPC(maxRetries, baseDelay, f)` of the unnamed variant (lines
53-78).  The loop runs `maxRetries + 1` times (attempts `i = 0 ..
maxRetries`); on a retryable failure it sleeps `delay` and doubles it —
including after the final attempt, before giving up. -/
def RetryGRPC (maxRetries : Int) (baseDelay : Int)
    (f : Nat → Option RpcError) : Option RpcError × Nat × List Int :=
  retryAux f (maxRetries + 1).toNat 0 baseDelay none []

/-- One step of the Redis-variant compute loop `a, b = b, a+b`. -/
def fibStep (p : Int × Int) : Int × Int := (p.2, wadd p.1 p.2)

/-- `Fib` of the unnamed (Redis) variant: base cases, a Redis `GET` of
`fib:<n>` (`some` = hit, `none` = miss; a Redis error or a parse failure of
the cached string also falls through to the compute path, and the model's
cache stores integers so parsing cannot fail), then the iterative loop
`a, b := 0, 1; for i := 2; i <= n; i++ { a, b = b, a+b }` and a single
`SET fib:<n> = b` of the final value only. -/
def Fib (c : Cache) (n : Int) : Int × Cache :=
  if n = 0 then (0, c)
  else if n = 1 then (1, c)
  else
    match c n with
    | some cached => (cached, c)
    | none =>
        let b := (fibStep^[(n - 1).toNat] (0, 1)).2
        (b, fun k => if k = n then some b else c k)

/-- `GetFib` of the unnamed (Redis) variant: rejects only `n > 92`,
otherwise answers `Fib(n)`.  `telem` is the outcome sequence of the
fire-and-forget telemetry goroutine's delivery attempts; it is part of the
state of the world but, as in the source, the reply does not consume it. -/
def GetFib (c : Cache) (n : Int) (_telem : Nat → Option RpcError) :
    (Except FibSvc.GrpcError Int) × Cache :=
  if 92 < n then
    (Except.error ⟨FibSvc.GrpcCode.InvalidArgument, "n too large (max 92)"⟩, c)
  else
    let r := Fib c n
    (Except.ok r.1, r.2)

end RedisSvc

/-- Invariant of the Redis cache: every present `fib:<k>` entry holds the
correct Fibonacci value for some index at most 92. -/
def GoodRedisCache (c : Cache) : Prop :=
  ∀ k v, c k = some v → ∃ m : Nat, k = (m : Int) ∧ m ≤ 92 ∧ v = (Nat.fib m : Int)

/-- Redis cache states reachable from an empty store by validated `Fib`
calls. -/
inductive ReachableRedisCache : Cache → Prop where
  | init : ReachableRedisCache RedisSvc.emptyCache
  | step (c : Cache) (n : Nat) (hn : n ≤ 92) (hc : ReachableRedisCache c) :
      ReachableRedisCache (RedisSvc.Fib c (n : Int)).2

/-- The `a, b = b, a+b` loop computes consecutive Fibonacci pairs (without
wrap-around, for indices at most 92). -/
theorem fibStep_iterate (k : Nat) (hk : k ≤ 91) :
    RedisSvc.fibStep^[k] (0, 1) =
      ((Nat.fib k : Int), (Nat.fib (k + 1) : Int)) := by
  induction k with
  | zero => simp
  | succ k ih =>
      rw [Function.iterate_succ_apply', ih (by omega)]
      unfold RedisSvc.fibStep
      have hsum : (Nat.fib k : Int) + (Nat.fib (k + 1) : Int) <
          9223372036854775808 := by
        have hb := fib_le_92_lt (k + 2) (by omega)
        rw [Nat.fib_add_two] at hb
        exact_mod_cast hb
      simp only
      rw [wadd_eq (by positivity) (by positivity) hsum]
      push_cast [Nat.fib_add_two]
      ring_nf

/-- Correctness and invariant preservation of the Redis-variant `Fib`. -/
theorem FibRedis_correct (c : Cache) (hg : GoodRedisCache c) (n : Nat)
    (hn : n ≤ 92) :
    (RedisSvc.Fib c (n : Int)).1 = (Nat.fib n : Int) ∧
    GoodRedisCache (RedisSvc.Fib c (n : Int)).2 := by
  match n with
  | 0 => exact ⟨by simp [RedisSvc.Fib], by simpa [RedisSvc.Fib] using hg⟩
  | 1 => exact ⟨by simp [RedisSvc.Fib], by simpa [RedisSvc.Fib] using hg⟩
  | m + 2 =>
      have hne0 : ((m + 2 : Nat) : Int) ≠ 0 := by omega
      have hne1 : ((m + 2 : Nat) : Int) ≠ 1 := by omega
      cases hcase : c ((m + 2 : Nat) : Int) with
      | some v =>
          have hv : v = (Nat.fib (m + 2) : Int) := by
            obtain ⟨m', hk, _, hv⟩ := hg _ v hcase
            have : m' = m + 2 := by omega
            subst this
            exact hv
          have hF : RedisSvc.Fib c ((m + 2 : Nat) : Int) = (v, c) := by
            unfold RedisSvc.Fib
            rw [if_neg hne0, if_neg hne1, hcase]
          rw [hF, hv]
          exact ⟨rfl, hg⟩
      | none =>
          have htn : (((m + 2 : Nat) : Int) - 1).toNat = m + 1 := by omega
          have hiter := fibStep_iterate (m + 1) (by omega)
          have hb : (RedisSvc.fibStep^[(((m + 2 : Nat) : Int) - 1).toNat]
              (0, 1)).2 = (Nat.fib (m + 2) : Int) := by
            rw [htn, hiter]
          have hF : RedisSvc.Fib c ((m + 2 : Nat) : Int) =
              ((Nat.fib (m + 2) : Int), fun k =>
                if k = ((m + 2 : Nat) : Int) then some ((Nat.fib (m + 2) : Int))
                else c k) := by
            unfold RedisSvc.Fib
            rw [if_neg hne0, if_neg hne1, hcase]
            simp only [hb]
          rw [hF]
          refine ⟨rfl, ?_⟩
          intro k v h
          have h2 : (if k = ((m + 2 : Nat) : Int)
              then some ((Nat.fib (m + 2) : Int)) else c k) = some v := h
          by_cases hk : k = ((m + 2 : Nat) : Int)
          · rw [if_pos hk] at h2
            exact ⟨m + 2, by omega, by omega, by
              simpa using h2.symm⟩
          · rw [if_neg hk] at h2
            exact hg k v h2

/-- Every reachable Redis cache satisfies the invariant. -/
theorem goodRedisCache_of_reachable {c : Cache} (h : ReachableRedisCache c) :
    GoodRedisCache c := by
  induction h with
  | init => intro k v h; exact absurd h (by simp [RedisSvc.emptyCache])
  | step c n hn _ ih => exact (FibRedis_correct c ih n hn).2

namespace StatsSvc

/-- The `Stats` aggregation state of the stats service (second file in
`fibonacci-service/main.go`): `RequestCount map[int]int`, `TotalRequests
int`, `TotalTime map[int]time.Duration`.  The two Go maps share their key
set (both are only written by `RecordNo`, at the same key); `keys` models
the set of keys present in `RequestCount`, and the two maps are modelled as
total functions defaulting to the Go zero value 0 for absent keys.
`time.Duration` is an `int64` nanosecond count, modelled as `Int`. -/
structure Stats where
  keys : List Int
  RequestCount : Int → Nat
  TotalRequests : Nat
  TotalTime : Int → Int

/-- The `defaultStats` value built in `main`: empty maps, zero counter. -/
def defaultStats : Stats :=
  { keys := [], RequestCount := fun _ => 0, TotalRequests := 0,
    TotalTime := fun _ => 0 }

/-- The reply of `RecordNo` (`RecordResponse{Success: true}`). -/
structure RecordResponse where
  Success : Bool
  deriving DecidableEq

/-- `RecordNo(n, duration)`: under the mutex, increments the per-`n` count,
increments the total counter, and adds the duration to the per-`n` total.
`TotalTime[n] += dur` is int64 addition on `time.Duration` values and the
duration comes straight from the client-supplied int64 field, so two legal
calls can overflow: the accumulation is modelled with the wrapping `wadd`.
The request counters wrap only after 2^63 calls (one increment per call),
which no finite deployment reaches before the sum invariantly tracked here
would, so they are modelled as unbounded naturals.  The Go method always
returns `(&RecordResponse{Success: true}, nil)`; the `Except` layer records
that the error result is always `nil`. -/
def RecordNo (s : Stats) (n : Int) (d : Int) :
    (Except FibSvc.GrpcError RecordResponse) × Stats :=
  (Except.ok ⟨true⟩,
    { keys := if n ∈ s.keys then s.keys else s.keys ++ [n]
      RequestCount := fun k =>
        if k = n then s.RequestCount k + 1 else s.RequestCount k
      TotalRequests := s.TotalRequests + 1
      TotalTime := fun k =>
        if k = n then wadd (s.TotalTime k) d else s.TotalTime k })

/-- One per-`n` entry of the snapshot (`FibonacciStat` proto message).
`AverageTimeMs` is a `double` in the proto; the exact value
`float64(TotalTime[n].Milliseconds()) / float64(count)` is modelled as a
rational. -/
structure FibonacciStat where
  N : Int
  RequestCount : Nat
  AverageTimeMs : Rat

/-- The snapshot reply (`StatsResponse` proto message). -/
structure StatsResponse where
  TotalRequests : Nat
  FibonacciStats : List FibonacciStat

/-- Go `time.Duration.Milliseconds()`: integer division by 10^6, truncating
toward zero. -/
def durationMillis (d : Int) : Int := d.tdiv 1000000

/-- `GetStats`: under the mutex, collects the keys of `RequestCount`, sorts
them ascending (`sort.Ints`), and builds one entry per key with the average
derived from the two totals.  The Go method always returns a non-nil reply
with a `nil` error. -/
def GetStats (s : Stats) : (Except FibSvc.GrpcError StatsResponse) :=
  let sortedKeys := List.insertionSort (fun a b => a ≤ b) s.keys
  Except.ok
    { TotalRequests := s.TotalRequests
      FibonacciStats := sortedKeys.map fun n =>
        { N := n
          RequestCount := s.RequestCount n
          AverageTimeMs :=
            ((durationMillis (s.TotalTime n) : Rat)) / ((s.RequestCount n : Rat)) } }

end StatsSvc

/-- Aggregator states reachable from `defaultStats` by `RecordNo` calls. -/
inductive ReachableStats : StatsSvc.Stats → Prop where
  | init : ReachableStats StatsSvc.defaultStats
  | step (s : StatsSvc.Stats) (n d : Int) (hs : ReachableStats s) :
      ReachableStats (StatsSvc.RecordNo s n d).2

/-- Invariant of the aggregation state: the key list has no duplicates, the
total counter equals the sum of the per-key counts, every present key has
been recorded at least once, and both maps are zero off the key list. -/
def StatsInv (s : StatsSvc.Stats) : Prop :=
  s.keys.Nodup ∧
  s.TotalRequests = (s.keys.map s.RequestCount).sum ∧
  (∀ k ∈ s.keys, 1 ≤ s.RequestCount k) ∧
  (∀ k, k ∉ s.keys → s.RequestCount k = 0 ∧ s.TotalTime k = 0)

/-- Bumping a function at one key of a duplicate-free list raises the sum
over the list by exactly one. -/
theorem sum_map_bump {l : List Int} (f : Int → Nat) (n : Int)
    (hnd : l.Nodup) (hn : n ∈ l) :
    (l.map fun k => if k = n then f k + 1 else f k).sum = (l.map f).sum + 1 := by
  induction l with
  | nil => cases hn
  | cons a t ih =>
      rcases List.mem_cons.mp hn with h | ht
      · have heq : a = n := h.symm
        have hnt : n ∉ t := by
          rw [← heq]
          exact (List.nodup_cons.mp hnd).1
        have hmap : (t.map fun k => if k = n then f k + 1 else f k) = t.map f := by
          apply List.map_congr_left
          intro x hx
          have hxn : x ≠ n := by
            intro hx2
            rw [hx2] at hx
            exact hnt hx
          simp [hxn]
        simp only [List.map_cons, List.sum_cons, if_pos heq, hmap]
        omega
      · have hna : a ≠ n := by
          intro h2
          rw [h2] at hnd
          exact (List.nodup_cons.mp hnd).1 ht
        have ih2 := ih (List.nodup_cons.mp hnd).2 ht
        simp only [List.map_cons, List.sum_cons, if_neg hna, ih2]
        omega

/-- `RecordNo` preserves the aggregation invariant. -/
theorem statsInv_step (s : StatsSvc.Stats) (n d : Int) (h : StatsInv s) :
    StatsInv (StatsSvc.RecordNo s n d).2 := by
  obtain ⟨hnd, hsum, hpos, hzero⟩ := h
  by_cases hn : n ∈ s.keys
  · refine ⟨by simpa [StatsSvc.RecordNo, hn] using hnd, ?_, ?_, ?_⟩
    · show s.TotalRequests + 1 = _
      simp only [StatsSvc.RecordNo, if_pos hn]
      rw [sum_map_bump s.RequestCount n hnd hn]
      omega
    · intro k hk
      simp only [StatsSvc.RecordNo, if_pos hn] at hk ⊢
      by_cases hkn : k = n
      · simp [hkn]
      · simp only [if_neg hkn]
        exact hpos k hk
    · intro k hk
      simp only [StatsSvc.RecordNo, if_pos hn] at hk ⊢
      have hkn : k ≠ n := by
        intro h2
        rw [h2] at hk
        exact hk hn
      simp only [if_neg hkn]
      exact hzero k hk
  · refine ⟨?_, ?_, ?_, ?_⟩
    · simp only [StatsSvc.RecordNo, if_neg hn]
      refine List.Nodup.append hnd (List.nodup_singleton n) ?_
      intro a ha hb
      have hbn : a = n := by simpa using hb
      rw [hbn] at ha
      exact hn ha
    · show s.TotalRequests + 1 = _
      simp only [StatsSvc.RecordNo, if_neg hn, List.map_append, List.sum_append]
      have hmap : (s.keys.map fun k =>
          if k = n then s.RequestCount k + 1 else s.RequestCount k) =
          s.keys.map s.RequestCount := by
        apply List.map_congr_left
        intro x hx
        have : x ≠ n := fun hxn => hn (hxn ▸ hx)
        simp [this]
      rw [hmap]
      have h0 : s.RequestCount n = 0 := (hzero n hn).1
      simp [h0]
      omega
    · intro k hk
      simp only [StatsSvc.RecordNo, if_neg hn, List.mem_append,
        List.mem_singleton] at hk
      rcases hk with hk | rfl
      · have hkn : k ≠ n := fun h' => hn (h' ▸ hk)
        simp only [StatsSvc.RecordNo, if_neg hkn]
        exact hpos k hk
      · simp [StatsSvc.RecordNo]
    · intro k hk
      simp only [StatsSvc.RecordNo, if_neg hn, List.mem_append,
        List.mem_singleton, not_or] at hk
      obtain ⟨hk1, hk2⟩ := hk
      simp only [StatsSvc.RecordNo, if_neg hk2]
      exact hzero k hk1

/-- Every reachable aggregation state satisfies the invariant. -/
theorem statsInv_of_reachable {s : StatsSvc.Stats} (h : ReachableStats s) :
    StatsInv s := by
  induction h with
  | init =>
      exact ⟨List.nodup_nil, rfl, by simp [StatsSvc.defaultStats],
        fun k _ => ⟨rfl, rfl⟩⟩
  | step s n d _ ih => exact statsInv_step s n d ih

/-- The naive recursive reference variant also computes the mathematical
Fibonacci numbers on the validated range (its additions never wrap there). -/
theorem FibSlow_eq_fib : ∀ n : Nat, n ≤ 92 →
    FibSvc.FibSlow n = (Nat.fib n : Int) := by
  intro n
  induction n using Nat.twoStepInduction with
  | zero => intro _; simp [FibSvc.FibSlow]
  | one => intro _; simp [FibSvc.FibSlow]
  | more n ih1 ih2 =>
      intro hn
      have h1 := ih1 (by omega)
      have h2 := ih2 (by omega)
      have hsum : (Nat.fib (n + 1) : Int) + (Nat.fib n : Int) <
          9223372036854775808 := by
        have hb := fib_le_92_lt (n + 2) hn
        rw [Nat.fib_add_two] at hb
        exact_mod_cast Nat.add_comm (Nat.fib n) (Nat.fib (n + 1)) ▸ hb
      show wadd (FibSvc.FibSlow (n + 1)) (FibSvc.FibSlow n) = _
      rw [h1, h2, wadd_eq (by positivity) (by positivity) hsum]
      push_cast [Nat.fib_add_two]
      ring

/-- A retryable failure consumes one loop iteration: sleep the current
delay, double it, move to the next attempt. -/
theorem retryAux_step_retry {f : Nat → Option RpcError} {fuel i : Nat}
    {delay : Int} {prev : Option RpcError} {acc : List Int} {e : RpcError}
    (hf : f i = some e) (hr : RedisSvc.retryableErr e = true) :
    RedisSvc.retryAux f (fuel + 1) i delay prev acc =
      RedisSvc.retryAux f fuel (i + 1) (delay * 2) (some e) (delay :: acc) := by
  simp [RedisSvc.retryAux, hf, hr]

/-- A non-retryable failure terminates the loop at once with that error. -/
theorem retryAux_step_perm {f : Nat → Option RpcError} {fuel i : Nat}
    {delay : Int} {prev : Option RpcError} {acc : List Int} {e : RpcError}
    (hf : f i = some e) (hr : RedisSvc.retryableErr e = false) :
    RedisSvc.retryAux f (fuel + 1) i delay prev acc =
      (some e, i + 1, acc.reverse) := by
  simp [RedisSvc.retryAux, hf, hr]

/-- If the first `j` attempts fail transiently and attempt `j` fails with a
non-retryable error, the loop stops right there: the error is returned,
exactly `j + 1` attempts were made, and exactly `j` sleeps happened. -/
theorem retryAux_first_permanent (f : Nat → Option RpcError) (e : RpcError)
    (hperm : RedisSvc.retryableErr e = false) :
    ∀ j fuel i : Nat, ∀ delay : Int, ∀ prev : Option RpcError,
      ∀ acc : List Int, j < fuel →
      (∀ k, k < j → ∃ ek, f (i + k) = some ek ∧
        RedisSvc.retryableErr ek = true) →
      f (i + j) = some e →
      (RedisSvc.retryAux f fuel i delay prev acc).1 = some e ∧
      (RedisSvc.retryAux f fuel i delay prev acc).2.1 = i + j + 1 ∧
      (RedisSvc.retryAux f fuel i delay prev acc).2.2.length = j + acc.length := by
  intro j
  induction j with
  | zero =>
      intro fuel i delay prev acc hj htrans hf
      cases fuel with
      | zero => omega
      | succ fuel =>
          have hf0 : f i = some e := by simpa using hf
          rw [retryAux_step_perm hf0 hperm]
          simp
  | succ j ih =>
      intro fuel i delay prev acc hj htrans hf
      cases fuel with
      | zero => omega
      | succ fuel =>
          obtain ⟨e0, hf0, hr0⟩ := htrans 0 (by omega)
          have hf0i : f i = some e0 := by simpa using hf0
          rw [retryAux_step_retry hf0i hr0]
          have harg : ∀ k, k < j → ∃ ek, f (i + 1 + k) = some ek ∧
              RedisSvc.retryableErr ek = true := by
            intro k hk
            obtain ⟨ek, hek1, hek2⟩ := htrans (k + 1) (by omega)
            refine ⟨ek, ?_, hek2⟩
            rw [show i + 1 + k = i + (k + 1) from by omega]
            exact hek1
          have hfj : f (i + 1 + j) = some e := by
            rw [show i + 1 + j = i + (j + 1) from by omega]
            exact hf
          obtain ⟨p1, p2, p3⟩ := ih fuel (i + 1) (delay * 2) (some e0)
            (delay :: acc) (by omega) harg hfj
          refine ⟨p1, ?_, ?_⟩
          · rw [p2]
            omega
          · rw [p3]
            simp
            omega

/-- Shape of the Redis-variant `Fib` on a cache miss away from the base
cases: it returns the loop result and stores it under the single key `n`. -/
theorem FibRedis_miss_shape (c2 : Cache) (n : Int) (hn0 : n ≠ 0)
    (hn1 : n ≠ 1) (hm : c2 n = none) :
    RedisSvc.Fib c2 n = ((RedisSvc.fibStep^[(n - 1).toNat] (0, 1)).2,
      fun k => if k = n
        then some ((RedisSvc.fibStep^[(n - 1).toNat] (0, 1)).2)
        else c2 k) := by
  unfold RedisSvc.Fib
  rw [if_neg hn0, if_neg hn1, hm]

/-- C1: for every `n` with `0 ≤ n ≤ 92` and every prior cache state
reachable by earlier valid computations — in either variant — `Fib(n)` is a
pure function of the cache and `n` (hence deterministic) and returns the
mathematical Fibonacci number; in particular `Fib(0)=0`, `Fib(1)=1`,
`Fib(10)=55` and `Fib(92)=7540113804746346429`. -/
theorem fib_reachable_matches_math (c : Cache) (hc : ReachableCache c)
    (c2 : Cache) (hc2 : ReachableRedisCache c2) (n : Nat) (hn : n ≤ 92) :
    (FibSvc.Fib c (n : Int)).1 = (Nat.fib n : Int) ∧
    (RedisSvc.Fib c2 (n : Int)).1 = (Nat.fib n : Int) ∧
    Nat.fib 0 = 0 ∧ Nat.fib 1 = 1 ∧ Nat.fib 10 = 55 ∧
    Nat.fib 92 = 7540113804746346429 :=
  ⟨(Fib_correct c (goodCache_of_reachable hc) n hn).1,
    (FibRedis_correct c2 (goodRedisCache_of_reachable hc2) n hn).1,
    by decide, by decide, by decide, by decide⟩

/-- C1 witness: both variants on their initial caches at `n = 10`. -/
theorem fib_reachable_matches_math_witness :
    (FibSvc.Fib FibSvc.initCache ((10 : Nat) : Int)).1 = (Nat.fib 10 : Int) ∧
    (RedisSvc.Fib RedisSvc.emptyCache ((10 : Nat) : Int)).1 =
      (Nat.fib 10 : Int) := by
  have h := fib_reachable_matches_math FibSvc.initCache ReachableCache.init
    RedisSvc.emptyCache ReachableRedisCache.init 10 (by omega)
  exact ⟨h.1, h.2.1⟩

/-- C2 counterexample: the claim says every `n < 0` is rejected with
`InvalidArgument`, but `GetFib` only checks `n > 92`; at `n = -1` the
map-variant service replies `Ok 0` (reading the absent key yields Go's zero
value). -/
theorem getFib_negative_returns_ok :
    (FibSvc.GetFib FibSvc.initCache (-1)).1 = Except.ok 0 := rfl

/-- C2 (amended): `GetFib` fails exactly when `n > 92`, with code
`InvalidArgument` and the fixed message "n too large (max 92)" (the
offending value appears only in the log, not in the error); every
`n ≤ 92`, negative `n` included, gets a result, not an error — in both
variants. -/
theorem getFib_rejects_iff_above_92 (c c2 : Cache) (n : Int)
    (telem : Nat → Option RpcError) :
    ((∃ e, (FibSvc.GetFib c n).1 = Except.error e) ↔ 92 < n) ∧
    (92 < n → (FibSvc.GetFib c n).1 = Except.error
      ⟨FibSvc.GrpcCode.InvalidArgument, "n too large (max 92)"⟩) ∧
    (n ≤ 92 → (FibSvc.GetFib c n).1 = Except.ok (FibSvc.Fib c n).1) ∧
    ((∃ e, (RedisSvc.GetFib c2 n telem).1 = Except.error e) ↔ 92 < n) := by
  by_cases h : 92 < n
  · exact ⟨⟨fun _ => h, fun _ =>
        ⟨⟨FibSvc.GrpcCode.InvalidArgument, "n too large (max 92)"⟩,
          by simp [FibSvc.GetFib, h]⟩⟩,
      fun _ => by simp [FibSvc.GetFib, h],
      fun hle => absurd h (by omega),
      ⟨fun _ => h, fun _ =>
        ⟨⟨FibSvc.GrpcCode.InvalidArgument, "n too large (max 92)"⟩,
          by simp [RedisSvc.GetFib, h]⟩⟩⟩
  · refine ⟨⟨?_, fun hgt => absurd hgt h⟩, fun hgt => absurd hgt h,
      fun _ => by simp [FibSvc.GetFib, h], ⟨?_, fun hgt => absurd hgt h⟩⟩
    · rintro ⟨e, he⟩
      simp [FibSvc.GetFib, h] at he
    · rintro ⟨e, he⟩
      simp [RedisSvc.GetFib, h] at he

/-- C2 witness: `n = 93` is rejected with the exact error. -/
theorem getFib_rejects_iff_above_92_witness :
    (FibSvc.GetFib FibSvc.initCache 93).1 = Except.error
      ⟨FibSvc.GrpcCode.InvalidArgument, "n too large (max 92)"⟩ :=
  (getFib_rejects_iff_above_92 FibSvc.initCache RedisSvc.emptyCache 93
    (fun _ => none)).2.1 (by omega)

/-- C3 counterexample: at `n = -1` the claim requires a validation failure
with no cache mutation, but the Redis-variant `GetFib` replies `Ok 1` and
writes `fib:-1 ↦ 1` into the previously empty store. -/
theorem getFib_negative_no_error_mutates_redis :
    (RedisSvc.GetFib RedisSvc.emptyCache (-1) (fun _ => none)).1 =
      Except.ok 1 ∧
    RedisSvc.emptyCache (-1) = none ∧
    (RedisSvc.GetFib RedisSvc.emptyCache (-1) (fun _ => none)).2 (-1) =
      some 1 :=
  ⟨rfl, rfl, rfl⟩

/-- C3 (amended): for every `n > 92`, `GetFib` fails with the
`InvalidArgument` validation error and leaves the cache exactly as it was,
in both variants; inputs `n < 0` are not rejected (the map variant returns
without mutating, the Redis variant stores a bogus value). -/
theorem getFib_above_92_error_no_mutation (c c2 : Cache) (n : Int)
    (hn : 92 < n) (telem : Nat → Option RpcError) :
    (FibSvc.GetFib c n).1 = Except.error
      ⟨FibSvc.GrpcCode.InvalidArgument, "n too large (max 92)"⟩ ∧
    (FibSvc.GetFib c n).2 = c ∧
    (RedisSvc.GetFib c2 n telem).1 = Except.error
      ⟨FibSvc.GrpcCode.InvalidArgument, "n too large (max 92)"⟩ ∧
    (RedisSvc.GetFib c2 n telem).2 = c2 :=
  ⟨by simp [FibSvc.GetFib, hn], by simp [FibSvc.GetFib, hn],
    by simp [RedisSvc.GetFib, hn], by simp [RedisSvc.GetFib, hn]⟩

/-- C3 witness: at `n = 93` both caches are returned untouched. -/
theorem getFib_above_92_error_no_mutation_witness :
    (FibSvc.GetFib FibSvc.initCache 93).2 = FibSvc.initCache ∧
    (RedisSvc.GetFib RedisSvc.emptyCache 93 (fun _ => none)).2 =
      RedisSvc.emptyCache := by
  have h := getFib_above_92_error_no_mutation FibSvc.initCache
    RedisSvc.emptyCache 93 (by omega) (fun _ => none)
  exact ⟨h.2.1, h.2.2.2⟩

/-- C4 counterexample: the claim also covers the map-variant `GetFib`
goroutine (`fibonacci-service/main.go` lines 49-61), but that Report path
makes exactly one delivery attempt with no retry and no backoff even when
the attempt fails transiently — not 4 attempts. -/
theorem report_map_variant_single_attempt :
    (FibSvc.Report (fun _ => some (RpcError.grpc
      ⟨FibSvc.GrpcCode.Unavailable, "stats service down"⟩))).2.1 = 1 ∧
    (FibSvc.Report (fun _ => some (RpcError.grpc
      ⟨FibSvc.GrpcCode.Unavailable, "stats service down"⟩))).2.1 ≠ 4 ∧
    (FibSvc.Report (fun _ => some (RpcError.grpc
      ⟨FibSvc.GrpcCode.Unavailable, "stats service down"⟩))).2.2 =
      ([] : List Int) :=
  ⟨rfl, by decide, rfl⟩

/-- C4 (amended): in the unnamed (Redis) variant, if every delivery attempt
fails transiently, `RetryGRPC(3, 100ms, f)` makes exactly 4 attempts (1
initial + 3 retries) and sleeps 100ms, 200ms, 400ms, 800ms
(non-decreasing); the map-variant goroutine instead makes exactly 1 attempt
with no retry and no sleep; in both variants the delivery outcome stays
inside the fire-and-forget goroutine: the `GetFib` reply for a valid `n` is
the computed value regardless of the telemetry outcome. -/
theorem retry_all_transient_four_attempts (f : Nat → Option RpcError)
    (h : ∀ i, i < 4 → ∃ e, f i = some e ∧ RedisSvc.retryableErr e = true) :
    (RedisSvc.RetryGRPC 3 100 f).2.1 = 4 ∧
    (RedisSvc.RetryGRPC 3 100 f).2.2 = [100, 200, 400, 800] ∧
    List.Chain' (fun a b => a ≤ b) (RedisSvc.RetryGRPC 3 100 f).2.2 ∧
    (∃ e, (RedisSvc.RetryGRPC 3 100 f).1 = some e) ∧
    (∀ c n telem, ¬ 92 < n →
      (RedisSvc.GetFib c n telem).1 = Except.ok (RedisSvc.Fib c n).1) ∧
    (∀ g : Nat → Option RpcError,
      (FibSvc.Report g).2.1 = 1 ∧ (FibSvc.Report g).2.2 = ([] : List Int)) ∧
    (∀ c n, ¬ 92 < n →
      (FibSvc.GetFib c n).1 = Except.ok (FibSvc.Fib c n).1) := by
  obtain ⟨e0, hf0, hr0⟩ := h 0 (by omega)
  obtain ⟨e1, hf1, hr1⟩ := h 1 (by omega)
  obtain ⟨e2, hf2, hr2⟩ := h 2 (by omega)
  obtain ⟨e3, hf3, hr3⟩ := h 3 (by omega)
  have hrun : RedisSvc.RetryGRPC 3 100 f = (some e3, 4, [100, 200, 400, 800]) := by
    have s0 : RedisSvc.retryAux f 4 0 100 none [] =
        RedisSvc.retryAux f 3 1 200 (some e0) [100] :=
      retryAux_step_retry hf0 hr0
    have s1 : RedisSvc.retryAux f 3 1 200 (some e0) [100] =
        RedisSvc.retryAux f 2 2 400 (some e1) [200, 100] :=
      retryAux_step_retry hf1 hr1
    have s2 : RedisSvc.retryAux f 2 2 400 (some e1) [200, 100] =
        RedisSvc.retryAux f 1 3 800 (some e2) [400, 200, 100] :=
      retryAux_step_retry hf2 hr2
    have s3 : RedisSvc.retryAux f 1 3 800 (some e2) [400, 200, 100] =
        RedisSvc.retryAux f 0 4 1600 (some e3) [800, 400, 200, 100] :=
      retryAux_step_retry hf3 hr3
    have s4 : RedisSvc.retryAux f 0 4 1600 (some e3) [800, 400, 200, 100] =
        (some e3, 4, [100, 200, 400, 800]) := rfl
    calc RedisSvc.RetryGRPC 3 100 f
        = RedisSvc.retryAux f 4 0 100 none [] := rfl
      _ = RedisSvc.retryAux f 3 1 200 (some e0) [100] := s0
      _ = RedisSvc.retryAux f 2 2 400 (some e1) [200, 100] := s1
      _ = RedisSvc.retryAux f 1 3 800 (some e2) [400, 200, 100] := s2
      _ = RedisSvc.retryAux f 0 4 1600 (some e3) [800, 400, 200, 100] := s3
      _ = (some e3, 4, [100, 200, 400, 800]) := s4
  refine ⟨by rw [hrun], by rw [hrun],
    by
      rw [hrun]
      show List.Chain' (fun a b : Int => a ≤ b) [100, 200, 400, 800]
      norm_num [List.chain'_cons],
    ⟨e3, by rw [hrun]⟩, ?_, fun g => ⟨rfl, rfl⟩, ?_⟩
  · intro c n telem h2
    simp [RedisSvc.GetFib, h2]
  · intro c n h2
    simp [FibSvc.GetFib, h2]

/-- C4 witness: four consecutive `Unavailable` failures. -/
theorem retry_all_transient_four_attempts_witness :
    (RedisSvc.RetryGRPC 3 100 (fun _ => some (RpcError.grpc
      ⟨FibSvc.GrpcCode.Unavailable, "stats service down"⟩))).2.1 = 4 ∧
    (RedisSvc.RetryGRPC 3 100 (fun _ => some (RpcError.grpc
      ⟨FibSvc.GrpcCode.Unavailable, "stats service down"⟩))).2.2 =
      [100, 200, 400, 800] := by
  have h := retry_all_transient_four_attempts
    (fun _ => some (RpcError.grpc
      ⟨FibSvc.GrpcCode.Unavailable, "stats service down"⟩))
    (fun i _ => ⟨_, rfl, by decide⟩)
  exact ⟨h.1, h.2.1⟩

/-- C5: a delivery attempt is retried only on a transient gRPC status; the
first non-retryable failure (any other code, or a non-gRPC error) is
terminal on the attempt where it occurs: `j` transient failures followed by
a permanent one give exactly `j + 1` attempts and `j` sleeps, and the
permanent error is returned; with `j = 0` that is one attempt, no retry. -/
theorem retry_permanent_first_occurrence_terminal (f : Nat → Option RpcError)
    (j : Nat) (e : RpcError) (hj : j ≤ 3)
    (htrans : ∀ k, k < j → ∃ ek, f k = some ek ∧
      RedisSvc.retryableErr ek = true)
    (hf : f j = some e) (hperm : RedisSvc.retryableErr e = false) :
    (RedisSvc.RetryGRPC 3 100 f).1 = some e ∧
    (RedisSvc.RetryGRPC 3 100 f).2.1 = j + 1 ∧
    (RedisSvc.RetryGRPC 3 100 f).2.2.length = j := by
  have h := retryAux_first_permanent f e hperm j 4 0 100 none [] (by omega)
    (by simpa using htrans) (by simpa using hf)
  have hdef : RedisSvc.RetryGRPC 3 100 f =
      RedisSvc.retryAux f 4 0 100 none [] := rfl
  rw [hdef]
  refine ⟨h.1, ?_, ?_⟩
  · rw [h.2.1]
    omega
  · rw [h.2.2]
    simp

/-- C5 witness: a permanent failure (`InvalidArgument`, a non-transient
code) on the very first attempt: one attempt, zero sleeps. -/
theorem retry_permanent_first_occurrence_terminal_witness :
    (RedisSvc.RetryGRPC 3 100 (fun _ => some (RpcError.grpc
      ⟨FibSvc.GrpcCode.InvalidArgument, "malformed request"⟩))).2.1 = 1 ∧
    (RedisSvc.RetryGRPC 3 100 (fun _ => some (RpcError.grpc
      ⟨FibSvc.GrpcCode.InvalidArgument, "malformed request"⟩))).2.2.length
      = 0 := by
  have h := retry_permanent_first_occurrence_terminal
    (fun _ => some (RpcError.grpc
      ⟨FibSvc.GrpcCode.InvalidArgument, "malformed request"⟩))
    0 (RpcError.grpc ⟨FibSvc.GrpcCode.InvalidArgument, "malformed request"⟩)
    (by omega) (fun k hk => absurd hk (by omega)) rfl (by decide)
  exact ⟨h.2.1, h.2.2⟩

/-- C6: a snapshot lists the per-`n` entries strictly ascending by `n`, each
entry's average is the accumulated total duration (in truncated
milliseconds) divided by that `n`'s count, the division never sees a zero
count, and the snapshot of the untouched aggregator is `total_requests = 0`
with an empty per-`n` sequence. -/
theorem getStats_sorted_averages_empty (s : StatsSvc.Stats)
    (hs : ReachableStats s) (r : StatsSvc.StatsResponse)
    (hr : StatsSvc.GetStats s = Except.ok r) :
    r.FibonacciStats.Pairwise (fun a b => a.N < b.N) ∧
    (∀ st ∈ r.FibonacciStats, st.RequestCount ≠ 0 ∧
      st.AverageTimeMs = ((StatsSvc.durationMillis (s.TotalTime st.N) : Rat)) /
        ((st.RequestCount : Rat))) ∧
    StatsSvc.GetStats StatsSvc.defaultStats =
      Except.ok { TotalRequests := 0, FibonacciStats := [] } := by
  obtain ⟨hnd, hsum, hpos, hzero⟩ := statsInv_of_reachable hs
  simp only [StatsSvc.GetStats] at hr
  injection hr with hr2
  subst hr2
  have hperm := List.perm_insertionSort (fun a b : Int => a ≤ b) s.keys
  have hsorted := List.sorted_insertionSort (fun a b : Int => a ≤ b) s.keys
  have hnd2 : (List.insertionSort (fun a b : Int => a ≤ b) s.keys).Nodup :=
    hperm.nodup_iff.mpr hnd
  have hlt := List.Sorted.lt_of_le hsorted hnd2
  refine ⟨List.pairwise_map.mpr (hlt.imp fun h => h), ?_, rfl⟩
  intro st hst
  obtain ⟨nk, hnk, heq⟩ := List.mem_map.mp hst
  subst heq
  have h1 : nk ∈ s.keys := hperm.subset hnk
  have h2 := hpos nk h1
  exact ⟨by show s.RequestCount nk ≠ 0; omega, rfl⟩

/-- C6 witness: the empty snapshot. -/
theorem getStats_sorted_averages_empty_witness :
    StatsSvc.GetStats StatsSvc.defaultStats =
      Except.ok { TotalRequests := 0, FibonacciStats := [] } :=
  (getStats_sorted_averages_empty StatsSvc.defaultStats ReachableStats.init
    { TotalRequests := 0, FibonacciStats := [] } rfl).2.2

/-- C7 counterexample: `TotalTime[n] += dur` is wrapping int64 addition,
so two legal client-supplied durations of `8·10^18` ns overflow: the stored
total is the wrapped value `-2446744073709551616`, not the exact sum
`16·10^18` that the claim's "adds d to the accumulated total duration"
asserts. -/
theorem recordNo_duration_overflow_wraps :
    (StatsSvc.RecordNo (StatsSvc.RecordNo StatsSvc.defaultStats 0
        8000000000000000000).2 0 8000000000000000000).2.TotalTime 0 =
      -2446744073709551616 ∧
    (StatsSvc.RecordNo (StatsSvc.RecordNo StatsSvc.defaultStats 0
        8000000000000000000).2 0 8000000000000000000).2.TotalTime 0 ≠
      (StatsSvc.RecordNo StatsSvc.defaultStats 0
        8000000000000000000).2.TotalTime 0 + 8000000000000000000 := by
  refine ⟨by decide, by decide⟩

/-- C7 (amended): every `RecordNo(n, d)` call increments the total request
counter by exactly 1, increments the per-`n` count by exactly 1,
accumulates `d` into the duration total for `n` with 64-bit wrapping
addition — which is the exact sum whenever that sum stays in int64 range —
leaves every other key's entries unchanged, and never returns an error (the
Go method always replies `Success: true, nil`). -/
theorem recordNo_increments_exactly (s : StatsSvc.Stats) (n d : Int) :
    (StatsSvc.RecordNo s n d).1 = Except.ok ⟨true⟩ ∧
    (StatsSvc.RecordNo s n d).2.TotalRequests = s.TotalRequests + 1 ∧
    (StatsSvc.RecordNo s n d).2.RequestCount n = s.RequestCount n + 1 ∧
    (StatsSvc.RecordNo s n d).2.TotalTime n = wadd (s.TotalTime n) d ∧
    (-9223372036854775808 ≤ s.TotalTime n + d →
      s.TotalTime n + d < 9223372036854775808 →
      (StatsSvc.RecordNo s n d).2.TotalTime n = s.TotalTime n + d) ∧
    (∀ k, k ≠ n →
      (StatsSvc.RecordNo s n d).2.RequestCount k = s.RequestCount k ∧
      (StatsSvc.RecordNo s n d).2.TotalTime k = s.TotalTime k) := by
  refine ⟨rfl, rfl, by simp [StatsSvc.RecordNo], by simp [StatsSvc.RecordNo],
    ?_, ?_⟩
  · intro h1 h2
    show (if n = n then wadd (s.TotalTime n) d else s.TotalTime n) = _
    rw [if_pos rfl, wadd_eq_of_bounds h1 h2]
  · intro k hk
    constructor
    · show (if k = n then s.RequestCount k + 1 else s.RequestCount k) = _
      rw [if_neg hk]
    · show (if k = n then wadd (s.TotalTime k) d else s.TotalTime k) = _
      rw [if_neg hk]

/-- C7 witness: one record on the fresh aggregator, checked at the recorded
key (in-range duration, so the accumulation is the exact sum) and at
another key. -/
theorem recordNo_increments_exactly_witness :
    (StatsSvc.RecordNo StatsSvc.defaultStats 5 7).2.TotalRequests =
      StatsSvc.defaultStats.TotalRequests + 1 ∧
    (StatsSvc.RecordNo StatsSvc.defaultStats 5 7).2.TotalTime 5 =
      StatsSvc.defaultStats.TotalTime 5 + 7 ∧
    (StatsSvc.RecordNo StatsSvc.defaultStats 5 7).2.RequestCount 6 =
      StatsSvc.defaultStats.RequestCount 6 := by
  have h := recordNo_increments_exactly StatsSvc.defaultStats 5 7
  exact ⟨h.2.1, h.2.2.2.2.1 (by decide) (by decide),
    (h.2.2.2.2.2 6 (by omega)).1⟩

/-- C8 counterexample: the Redis-variant `Fib` on a miss stores only the
final value: after `Fib(3)` on an empty store the intermediate index 2 is
still absent, although the result 2 = Fib(3) is returned. -/
theorem redis_fib_omits_intermediates :
    RedisSvc.emptyCache ((3 : Nat) : Int) = none ∧
    (RedisSvc.Fib RedisSvc.emptyCache ((3 : Nat) : Int)).1 = 2 ∧
    (RedisSvc.Fib RedisSvc.emptyCache ((3 : Nat) : Int)).2
      ((2 : Nat) : Int) = none := by
  refine ⟨rfl, by decide, by decide⟩

/-- C8 (amended): on a cache miss for `2 ≤ n ≤ 92`, the map-variant `Fib`
computes iteratively and stores every index up to `n` (intermediates and
final result) in the cache it returns, with the correct values; the
Redis-variant `Fib` computes iteratively but stores only the final result
under key `n`, leaving every other key untouched. -/
theorem fib_miss_storage (c : Cache) (hc : ReachableCache c) (n : Nat)
    (h2 : 2 ≤ n) (hn : n ≤ 92) (hmiss : c ((n : Nat) : Int) = none) :
    (FibSvc.Fib c (n : Int)).1 = (Nat.fib n : Int) ∧
    (∀ i : Nat, i ≤ n →
      (FibSvc.Fib c (n : Int)).2 ((i : Nat) : Int) = some ((Nat.fib i : Int))) ∧
    (∀ c2 : Cache, c2 (n : Int) = none →
      (RedisSvc.Fib c2 (n : Int)).2 (n : Int) =
        some ((RedisSvc.Fib c2 (n : Int)).1) ∧
      (∀ k : Int, k ≠ (n : Int) → (RedisSvc.Fib c2 (n : Int)).2 k = c2 k)) := by
  have hg := goodCache_of_reachable hc
  obtain ⟨m, rfl⟩ : ∃ m, n = m + 2 := ⟨n - 2, by omega⟩
  have hne0 : ((m + 2 : Nat) : Int) ≠ 0 := by omega
  have hne1 : ((m + 2 : Nat) : Int) ≠ 1 := by omega
  obtain ⟨A, B, C⟩ := fibLoop_spec c hg (m + 2) hn
  have htn : ((m + 2 : Nat) : Int).toNat = m + 2 := by omega
  have hF : FibSvc.Fib c ((m + 2 : Nat) : Int) =
      ((FibSvc.fibLoop c (m + 2) ((m + 2 : Nat) : Int)).getD 0,
        FibSvc.fibLoop c (m + 2)) := by
    unfold FibSvc.Fib
    rw [if_neg hne0, if_neg hne1, hmiss, htn]
  refine ⟨?_, ?_, ?_⟩
  · rw [hF]
    show (FibSvc.fibLoop c (m + 2) ((m + 2 : Nat) : Int)).getD 0 = _
    rw [B (m + 2) (le_refl _)]
    rfl
  · intro i hi
    rw [hF]
    exact B i hi
  · intro c2 hc2
    have hF2 := FibRedis_miss_shape c2 ((m + 2 : Nat) : Int) hne0 hne1 hc2
    constructor
    · rw [hF2]
      simp
    · intro k hk
      rw [hF2]
      show (if k = ((m + 2 : Nat) : Int) then _ else c2 k) = c2 k
      rw [if_neg hk]

/-- C8 witness: first miss at `n = 2` in both variants. -/
theorem fib_miss_storage_witness :
    (FibSvc.Fib FibSvc.initCache ((2 : Nat) : Int)).2 ((2 : Nat) : Int) =
      some ((Nat.fib 2 : Int)) ∧
    (RedisSvc.Fib RedisSvc.emptyCache ((2 : Nat) : Int)).2 ((2 : Nat) : Int) =
      some ((RedisSvc.Fib RedisSvc.emptyCache ((2 : Nat) : Int)).1) := by
  have h := fib_miss_storage FibSvc.initCache ReachableCache.init 2
    (by omega) (by omega) (by decide)
  exact ⟨h.2.1 2 (by omega), (h.2.2 RedisSvc.emptyCache rfl).1⟩

/-- C9: on the validated range, starting from the initial cache, the cached
iterative production evaluator `Fib` agrees with the naive recursive
reference variant `FibSlow`. -/
theorem fib_agrees_with_reference (n : Nat) (hn : n ≤ 92) :
    (FibSvc.Fib FibSvc.initCache (n : Int)).1 = FibSvc.FibSlow n := by
  rw [(Fib_correct FibSvc.initCache goodCache_init n hn).1,
    FibSlow_eq_fib n hn]

/-- C9 witness: agreement at `n = 10`. -/
theorem fib_agrees_with_reference_witness :
    (FibSvc.Fib FibSvc.initCache ((10 : Nat) : Int)).1 = FibSvc.FibSlow 10 :=
  fib_agrees_with_reference 10 (by omega)

/-- C10: in every aggregator state reachable by `RecordNo` calls from the
initial empty state, the total request counter equals the sum of the
per-key counts, every present key has count at least 1, every key with a
nonzero accumulated duration is present, and hence the average computation
in `GetStats` never divides by zero. -/
theorem stats_totals_invariant (s : StatsSvc.Stats) (hs : ReachableStats s) :
    s.TotalRequests = (s.keys.map s.RequestCount).sum ∧
    (∀ k ∈ s.keys, 1 ≤ s.RequestCount k) ∧
    (∀ k, s.TotalTime k ≠ 0 → k ∈ s.keys) ∧
    (∀ r, StatsSvc.GetStats s = Except.ok r →
      ∀ st ∈ r.FibonacciStats, st.RequestCount ≠ 0) := by
  obtain ⟨hnd, hsum, hpos, hzero⟩ := statsInv_of_reachable hs
  refine ⟨hsum, hpos, ?_, ?_⟩
  · intro k hk
    by_contra hmem
    exact hk (hzero k hmem).2
  · intro r hr st hst
    simp only [StatsSvc.GetStats] at hr
    injection hr with hr2
    subst hr2
    have hperm := List.perm_insertionSort (fun a b : Int => a ≤ b) s.keys
    obtain ⟨nk, hnk, heq⟩ := List.mem_map.mp hst
    subst heq
    have h1 : nk ∈ s.keys := hperm.subset hnk
    have h2 := hpos nk h1
    show s.RequestCount nk ≠ 0
    omega

/-- C10 witness: the invariant checked after one record. -/
theorem stats_totals_invariant_witness :
    (StatsSvc.RecordNo StatsSvc.defaultStats 5 2000000).2.TotalRequests =
      ((StatsSvc.RecordNo StatsSvc.defaultStats 5 2000000).2.keys.map
        (StatsSvc.RecordNo StatsSvc.defaultStats 5 2000000).2.RequestCount).sum :=
  (stats_totals_invariant (StatsSvc.RecordNo StatsSvc.defaultStats 5 2000000).2
    (ReachableStats.step StatsSvc.defaultStats 5 2000000
      ReachableStats.init)).1
